import Mathlib

/-!
# Verification of `AnsiEscape` (node-core-library, `Terminal/AnsiEscape.ts`)

A shallow embedding of the `AnsiEscape` class: the CSI recognizer
(`_csiRegExp = /\x1b\[([\x30-\x3f]*[\x20-\x2f]*[\x40-\x7e])/gu`), the SGR
search (`_sgrRegExp = /([0-9]+)m/u`), the SGR friendly-name table
(`_tryGetSgrFriendlyName`), and the two public operations `removeCodes`
and `formatForTests`.

Strings are modelled as their `List Char` data; regexes are embedded as
deterministic scanners (the three CSI byte classes are pairwise disjoint,
so the greedy regex never backtracks, and `[0-9]+` followed by the
literal `m` can only succeed on a maximal digit run, so advancing the
search position one character at a time is exactly the regex's leftmost
search).
-/

namespace AnsiEscape

/-- The escape character 0x1B. -/
def escChar : Char := Char.ofNat 0x1b

/-- Parameter bytes of a CSI sequence: the regex class `[\x30-\x3f]`. -/
def isParamByte (c : Char) : Bool := 0x30 ≤ c.toNat && c.toNat ≤ 0x3f

/-- Intermediate bytes of a CSI sequence: the regex class `[\x20-\x2f]`. -/
def isInterByte (c : Char) : Bool := 0x20 ≤ c.toNat && c.toNat ≤ 0x2f

/-- Final bytes of a CSI sequence: the regex class `[\x40-\x7e]`. -/
def isFinalByte (c : Char) : Bool := 0x40 ≤ c.toNat && c.toNat ≤ 0x7e

/-- Attempt to match `_csiRegExp` at the head of the input.  On success,
returns the capture group (parameter bytes, intermediate bytes and the
one final byte — the regex's capture group `([\x30-\x3f]*[\x20-\x2f]*[\x40-\x7e])`
includes the final byte) together with the input remaining after the match. -/
def csiMatch : List Char → Option (List Char × List Char)
  | e :: b :: rest =>
    if e = escChar ∧ b = '[' then
      let p := rest.takeWhile isParamByte
      let r1 := rest.dropWhile isParamByte
      let i := r1.takeWhile isInterByte
      let r2 := r1.dropWhile isInterByte
      match r2 with
      | f :: tail => if isFinalByte f then some (p ++ i ++ [f], tail) else none
      | [] => none
    else none
  | _ => none

/-- One pass of JavaScript `String.prototype.replace` with the global
`_csiRegExp`: scan left to right; at each position, if the regex matches,
emit `repl capture` and resume after the match, otherwise keep the
character.  Fuel-driven so that the function reduces in the kernel; the
public wrapper supplies `length` as fuel, which is always sufficient. -/
def replaceCsiF (repl : List Char → List Char) : Nat → List Char → List Char
  | _, [] => []
  | 0, l => l
  | fuel + 1, c :: cs =>
    match csiMatch (c :: cs) with
    | some (cap, rest) => repl cap ++ replaceCsiF repl fuel rest
    | none => c :: replaceCsiF repl fuel cs

/-- `text.replace(AnsiEscape._csiRegExp, repl)` on character lists. -/
def replaceCsi (repl : List Char → List Char) (l : List Char) : List Char :=
  replaceCsiF repl l.length l

/-- `AnsiEscape.removeCodes`: `text.replace(AnsiEscape._csiRegExp, '')`. -/
def removeCodes (text : String) : String :=
  String.mk (replaceCsi (fun _ => []) text.data)

/-- `AnsiEscape._tryGetSgrFriendlyName`, the SGR lookup table. -/
def tryGetSgrFriendlyName (sgiParameter : Nat) : Option String :=
  match sgiParameter with
  | 30 => some "black"
  | 31 => some "red"
  | 32 => some "green"
  | 33 => some "yellow"
  | 34 => some "blue"
  | 35 => some "magenta"
  | 36 => some "cyan"
  | 37 => some "white"
  | 90 => some "gray"
  | 39 => some "default"
  | 40 => some "black-bg"
  | 41 => some "red-bg"
  | 42 => some "green-bg"
  | 43 => some "yellow-bg"
  | 44 => some "blue-bg"
  | 45 => some "magenta-bg"
  | 46 => some "cyan-bg"
  | 47 => some "white-bg"
  | 100 => some "gray-bg"
  | 49 => some "default-bg"
  | 1 => some "bold"
  | 21 => some "bold-off"
  | 2 => some "dim"
  | 22 => some "normal"
  | 4 => some "underline"
  | 24 => some "underline-off"
  | 5 => some "blink"
  | 25 => some "blink-off"
  | 7 => some "invert"
  | 27 => some "invert-off"
  | 8 => some "hidden"
  | 28 => some "hidden-off"
  | _ => none

/-- `parseInt` on the digits captured by `_sgrRegExp`'s group `([0-9]+)`:
a base-10 read (the capture is always one or more decimal digits). -/
def digitsToNat (ds : List Char) : Nat :=
  ds.foldl (fun a c => a * 10 + (c.toNat - 0x30)) 0

/-- `csiCode.match(AnsiEscape._sgrRegExp)` where `_sgrRegExp = /([0-9]+)m/u`:
the leftmost occurrence of one-or-more digits immediately followed by the
literal `m`; returns the digit run of that occurrence.  (Greedy `[0-9]+`
can only succeed on a maximal digit run — backtracking exposes another
digit where `m` is required — so the deterministic check below is exact.) -/
def sgrMatchList : List Char → Option (List Char)
  | [] => none
  | c :: cs =>
    if c.isDigit then
      match (c :: cs).dropWhile Char.isDigit with
      | 'm' :: _ => some ((c :: cs).takeWhile Char.isDigit)
      | _ => sgrMatchList cs
    else sgrMatchList cs

/-- The replacement callback passed to `text.replace` in `formatForTests`:
on an SGR table hit show `[` + friendly name + `]`, otherwise fall back to
`[` + captured code + `]` (the capture includes the final byte). -/
def csiReplacement (csiCode : List Char) : List Char :=
  match sgrMatchList csiCode with
  | some run =>
    match tryGetSgrFriendlyName (digitsToNat run) with
    | some sgrParameterName => '[' :: sgrParameterName.data ++ [']']
    | none => '[' :: csiCode ++ [']']
  | none => '[' :: csiCode ++ [']']

/-- `IAnsiEscapeConvertForTestsOptions`: the optional `encodeNewlines`
flag (an absent field is modelled as `none`, i.e. JavaScript `undefined`). -/
structure IAnsiEscapeConvertForTestsOptions where
  encodeNewlines : Option Bool

/-- Global single-character replacement, the semantics of
`result.replace(/\n/g, tok)` for a one-character pattern. -/
def replaceChar (target : Char) (repl : List Char) (l : List Char) : List Char :=
  l.flatMap fun c => if c = target then repl else [c]

/-- `AnsiEscape.formatForTests(text, options?)`.  A missing `options`
argument becomes `{}`; a missing or `false` `encodeNewlines` field skips
the newline pass; otherwise `\n` is replaced by `[n]` and then `\r`
by `[r]`, over the whole CSI-substituted string. -/
def formatForTests (text : String)
    (options : Option IAnsiEscapeConvertForTestsOptions := none) : String :=
  let opts := options.getD ⟨none⟩
  let result := replaceCsi csiReplacement text.data
  let result :=
    if opts.encodeNewlines.getD false then
      replaceChar '\r' "[r]".data (replaceChar '\n' "[n]".data result)
    else result
  String.mk result

/-- A character list matching the full CSI grammar of `_csiRegExp`:
the escape 0x1B, then `[`, then zero or more parameter bytes, then zero
or more intermediate bytes, then exactly one final byte. -/
def IsCsi (m : List Char) : Prop :=
  ∃ p i f, m = escChar :: '[' :: (p ++ i ++ [f]) ∧
    p.all isParamByte = true ∧ i.all isInterByte = true ∧ isFinalByte f = true

lemma isInterByte_eq_false_of_isParamByte {c : Char} (h : isParamByte c = true) :
    isInterByte c = false := by
  simp only [isParamByte, Bool.and_eq_true, decide_eq_true_eq] at h
  simp only [isInterByte, Bool.and_eq_false_iff, decide_eq_false_iff_not]
  omega

lemma isParamByte_eq_false_of_isInterByte {c : Char} (h : isInterByte c = true) :
    isParamByte c = false := by
  simp only [isInterByte, Bool.and_eq_true, decide_eq_true_eq] at h
  simp only [isParamByte, Bool.and_eq_false_iff, decide_eq_false_iff_not]
  omega

lemma isParamByte_eq_false_of_isFinalByte {c : Char} (h : isFinalByte c = true) :
    isParamByte c = false := by
  simp only [isFinalByte, Bool.and_eq_true, decide_eq_true_eq] at h
  simp only [isParamByte, Bool.and_eq_false_iff, decide_eq_false_iff_not]
  omega

lemma isInterByte_eq_false_of_isFinalByte {c : Char} (h : isFinalByte c = true) :
    isInterByte c = false := by
  simp only [isFinalByte, Bool.and_eq_true, decide_eq_true_eq] at h
  simp only [isInterByte, Bool.and_eq_false_iff, decide_eq_false_iff_not]
  omega

/-- `takeWhile`/`dropWhile` on an append whose left part satisfies the
predicate everywhere and whose right part starts with a failing element. -/
lemma takeWhile_dropWhile_append {α : Type} (p : α → Bool) :
    ∀ (xs ys : List α), (∀ a ∈ xs, p a = true) →
      (∀ b, ys.head? = some b → p b = false) →
      (xs ++ ys).takeWhile p = xs ∧ (xs ++ ys).dropWhile p = ys
  | [], ys, _, hys => by
    cases ys with
    | nil => exact ⟨rfl, rfl⟩
    | cons b ys' =>
      have hb : p b = false := hys b rfl
      constructor
      · simp [List.takeWhile_cons, hb]
      · simp [List.dropWhile_cons, hb]
  | x :: xs, ys, hxs, hys => by
    have hx : p x = true := hxs x (List.mem_cons_self x xs)
    have ih := takeWhile_dropWhile_append p xs ys
      (fun a ha => hxs a (List.mem_cons_of_mem x ha)) hys
    constructor
    · simpa [List.takeWhile_cons, hx] using ih.1
    · simpa [List.dropWhile_cons, hx] using ih.2

/-- Soundness of the CSI matcher: a successful match at the head of `l`
decomposes `l` into a grammatical CSI sequence followed by the rest. -/
lemma csiMatch_eq_some {l cap rest : List Char}
    (h : csiMatch l = some (cap, rest)) :
    l = (escChar :: '[' :: cap) ++ rest ∧ IsCsi (escChar :: '[' :: cap) := by
  match l with
  | [] => simp [csiMatch] at h
  | [e] => simp [csiMatch] at h
  | e :: b :: r =>
    simp only [csiMatch] at h
    split at h
    · rename_i hguard
      obtain ⟨he, hb⟩ := hguard
      subst he hb
      split at h
      · rename_i f tail hr2
        split at h
        · rename_i hf
          injection h with h'
          injection h' with hcap hrest
          subst hcap hrest
          have hsplit1 : r.takeWhile isParamByte ++ r.dropWhile isParamByte = r :=
            List.takeWhile_append_dropWhile isParamByte r
          have hsplit2 : (r.dropWhile isParamByte).takeWhile isInterByte ++
              (r.dropWhile isParamByte).dropWhile isInterByte = r.dropWhile isParamByte :=
            List.takeWhile_append_dropWhile isInterByte (r.dropWhile isParamByte)
          have hr : r = r.takeWhile isParamByte ++
              ((r.dropWhile isParamByte).takeWhile isInterByte ++ (f :: tail)) := by
            rw [← hr2, hsplit2, hsplit1]
          constructor
          · conv_lhs => rw [hr]
            simp [List.append_assoc]
          · refine ⟨r.takeWhile isParamByte,
              (r.dropWhile isParamByte).takeWhile isInterByte, f, ?_, ?_, ?_, hf⟩
            · simp [List.append_assoc]
            · exact List.all_eq_true.mpr fun x hx => List.mem_takeWhile_imp hx
            · exact List.all_eq_true.mpr fun x hx => List.mem_takeWhile_imp hx
        · exact absurd h (by simp)
      · exact absurd h (by simp)
    · exact absurd h (by simp)

/-- Completeness (and determinism) of the CSI matcher: a grammatical CSI
sequence at the head of the input is matched, with the capture being the
sequence minus its two-character introducer. -/
lemma csiMatch_of_isCsi {m : List Char} (h : IsCsi m) (t : List Char) :
    csiMatch (m ++ t) = some (m.drop 2, t) := by
  obtain ⟨p, i, f, hm, hp, hi, hf⟩ := h
  subst hm
  have hp' : ∀ a ∈ p, isParamByte a = true := List.all_eq_true.mp hp
  have hi' : ∀ a ∈ i, isInterByte a = true := List.all_eq_true.mp hi
  have hbody : (p ++ i ++ [f]) ++ t = p ++ (i ++ (f :: t)) := by
    simp [List.append_assoc]
  have hhead1 : ∀ b, (i ++ (f :: t)).head? = some b → isParamByte b = false := by
    intro b hb
    cases i with
    | nil =>
      simp only [List.nil_append, List.head?_cons, Option.some.injEq] at hb
      subst hb
      exact isParamByte_eq_false_of_isFinalByte hf
    | cons i0 i' =>
      simp only [List.cons_append, List.head?_cons, Option.some.injEq] at hb
      subst hb
      exact isParamByte_eq_false_of_isInterByte (hi' i0 (List.mem_cons_self i0 i'))
  have hstep1 := takeWhile_dropWhile_append isParamByte p (i ++ (f :: t)) hp' hhead1
  have hhead2 : ∀ b, (f :: t).head? = some b → isInterByte b = false := by
    intro b hb
    simp only [List.head?_cons, Option.some.injEq] at hb
    subst hb
    exact isInterByte_eq_false_of_isFinalByte hf
  have hstep2 := takeWhile_dropWhile_append isInterByte i (f :: t) hi' hhead2
  show csiMatch (escChar :: '[' :: ((p ++ i ++ [f]) ++ t)) = _
  rw [hbody]
  simp only [csiMatch, and_self, if_true, hstep1.1, hstep1.2, hstep2.1, hstep2.2, hf,
    if_true, List.drop_succ_cons, List.drop_zero]

/-- The CSI matcher succeeds exactly when a grammatical CSI sequence is a
prefix of the input. -/
lemma csiMatch_isSome_iff {l : List Char} :
    (csiMatch l).isSome = true ↔ ∃ m, IsCsi m ∧ m <+: l := by
  constructor
  · intro h
    obtain ⟨⟨cap, rest⟩, hcr⟩ := Option.isSome_iff_exists.mp h
    obtain ⟨hl, hcsi⟩ := csiMatch_eq_some hcr
    exact ⟨escChar :: '[' :: cap, hcsi, rest, hl.symm⟩
  · rintro ⟨m, hcsi, t, rfl⟩
    rw [csiMatch_of_isCsi hcsi t]
    rfl

/-- The CSI matcher fails exactly when no grammatical CSI sequence is a
prefix of the input. -/
lemma csiMatch_eq_none_iff {l : List Char} :
    csiMatch l = none ↔ ¬ ∃ m, IsCsi m ∧ m <+: l := by
  rw [← csiMatch_isSome_iff, ← Option.not_isSome_iff_eq_none]

/-- A successful CSI match strictly shortens the input. -/
lemma csiMatch_rest_length {l cap rest : List Char}
    (h : csiMatch l = some (cap, rest)) : rest.length < l.length := by
  obtain ⟨hl, -⟩ := csiMatch_eq_some h
  rw [hl]
  simp only [List.cons_append, List.length_cons, List.length_append]
  omega

/-- The fuel argument of `replaceCsiF` is irrelevant once it reaches the
input's length. -/
lemma replaceCsiF_fuel (repl : List Char → List Char) :
    ∀ (fuel fuel' : Nat) (l : List Char), l.length ≤ fuel → l.length ≤ fuel' →
      replaceCsiF repl fuel l = replaceCsiF repl fuel' l := by
  intro fuel
  induction fuel with
  | zero =>
    intro fuel' l hl _
    have : l = [] := List.length_eq_zero.mp (Nat.le_zero.mp hl)
    subst this
    cases fuel' <;> rfl
  | succ n ih =>
    intro fuel' l hl hl'
    cases l with
    | nil => cases fuel' <;> rfl
    | cons c cs =>
      cases fuel' with
      | zero => exact absurd hl' (by simp)
      | succ n' =>
        cases hm : csiMatch (c :: cs) with
        | some v =>
          obtain ⟨cap, rest⟩ := v
          have hrest : rest.length < (c :: cs).length := csiMatch_rest_length hm
          simp only [List.length_cons] at hl hl' hrest
          have h1 : rest.length ≤ n := by omega
          have h2 : rest.length ≤ n' := by omega
          simp only [replaceCsiF, hm]
          rw [ih n' rest h1 h2]
        | none =>
          simp only [List.length_cons] at hl hl'
          have h1 : cs.length ≤ n := by omega
          have h2 : cs.length ≤ n' := by omega
          simp only [replaceCsiF, hm]
          rw [ih n' cs h1 h2]

/-- Unfolding equation of the scanner at a matching position. -/
lemma replaceCsi_cons_match {c : Char} {cs cap rest : List Char}
    (repl : List Char → List Char) (h : csiMatch (c :: cs) = some (cap, rest)) :
    replaceCsi repl (c :: cs) = repl cap ++ replaceCsi repl rest := by
  have hrest : rest.length < (c :: cs).length := csiMatch_rest_length h
  simp only [List.length_cons] at hrest
  simp only [replaceCsi, List.length_cons, replaceCsiF, h]
  congr 1
  exact replaceCsiF_fuel repl cs.length rest.length rest (by omega) le_rfl

/-- Unfolding equation of the scanner at a non-matching position. -/
lemma replaceCsi_cons_nomatch {c : Char} {cs : List Char}
    (repl : List Char → List Char) (h : csiMatch (c :: cs) = none) :
    replaceCsi repl (c :: cs) = c :: replaceCsi repl cs := by
  simp only [replaceCsi, List.length_cons, replaceCsiF, h]

/-- Scanning past a grammatical CSI sequence at the head of the input
emits the replacement of its capture (the sequence minus the introducer)
and continues on the rest. -/
lemma replaceCsi_isCsi_append {m : List Char} (hm : IsCsi m)
    (repl : List Char → List Char) (t : List Char) :
    replaceCsi repl (m ++ t) = repl (m.drop 2) ++ replaceCsi repl t := by
  have hmatch := csiMatch_of_isCsi hm t
  obtain ⟨p, i, f, hmeq, -, -, -⟩ := hm
  rw [hmeq] at hmatch ⊢
  simp only [List.cons_append] at hmatch ⊢
  exact replaceCsi_cons_match repl hmatch

/-- Decidable search for a grammatical CSI sequence anywhere in the input
(used to evaluate the hypotheses of the preservation theorems). -/
def hasCsiB : List Char → Bool
  | [] => false
  | c :: cs => (csiMatch (c :: cs)).isSome || hasCsiB cs

/-- `hasCsiB` decides the presence of a grammatical CSI infix. -/
lemma hasCsiB_eq_false_iff {l : List Char} :
    hasCsiB l = false ↔ ¬ ∃ m, IsCsi m ∧ m <:+: l := by
  induction l with
  | nil =>
    simp only [hasCsiB]
    constructor
    · rintro - ⟨m, hcsi, hinf⟩
      obtain ⟨p, i, f, hmeq, -⟩ := hcsi
      have : m = [] := by simpa using hinf.sublist.length_le
      simp [this] at hmeq
    · intro _
      trivial
  | cons c cs ih =>
    simp only [hasCsiB, Bool.or_eq_false_iff]
    constructor
    · rintro ⟨h1, h2⟩ ⟨m, hcsi, hinf⟩
      rcases List.infix_cons_iff.mp hinf with hpre | hinf'
      · have : (csiMatch (c :: cs)).isSome = true := csiMatch_isSome_iff.mpr ⟨m, hcsi, hpre⟩
        simp [this] at h1
      · exact ih.mp h2 ⟨m, hcsi, hinf'⟩
    · intro h
      constructor
      · rw [Bool.eq_false_iff]
        intro hsome
        obtain ⟨m, hcsi, hpre⟩ := csiMatch_isSome_iff.mp hsome
        exact h ⟨m, hcsi, List.infix_cons_iff.mpr (Or.inl hpre)⟩
      · exact ih.mpr fun ⟨m, hcsi, hinf⟩ =>
          h ⟨m, hcsi, List.infix_cons_iff.mpr (Or.inr hinf)⟩

/-- The scanner is the identity on inputs with no grammatical CSI infix. -/
lemma replaceCsi_of_hasCsiB_false {l : List Char}
    (repl : List Char → List Char) (h : hasCsiB l = false) :
    replaceCsi repl l = l := by
  induction l with
  | nil => rfl
  | cons c cs ih =>
    simp only [hasCsiB, Bool.or_eq_false_iff] at h
    have hnone : csiMatch (c :: cs) = none := by
      rw [← Option.not_isSome_iff_eq_none]
      simp [h.1]
    rw [replaceCsi_cons_nomatch repl hnone, ih h.2]

/-- `removeCodes` on inputs whose data contains no grammatical CSI infix. -/
lemma removeCodes_eq_self {s : String}
    (h : ¬ ∃ m, IsCsi m ∧ m <:+: s.data) : removeCodes s = s := by
  unfold removeCodes
  rw [replaceCsi_of_hasCsiB_false _ (hasCsiB_eq_false_iff.mpr h)]

/-- `formatForTests` without options on inputs whose data contains no
grammatical CSI infix. -/
lemma formatForTests_eq_self {s : String}
    (h : ¬ ∃ m, IsCsi m ∧ m <:+: s.data) : formatForTests s none = s := by
  show String.mk (replaceCsi csiReplacement s.data) = s
  rw [replaceCsi_of_hasCsiB_false _ (hasCsiB_eq_false_iff.mpr h)]

/-- Removal only deletes characters: the output of the removing scanner is
a sublist of the input. -/
lemma replaceCsi_remove_sublist :
    ∀ (n : Nat) (l : List Char), l.length ≤ n →
      (replaceCsi (fun _ => []) l).Sublist l := by
  intro n
  induction n with
  | zero =>
    intro l hl
    have : l = [] := List.length_eq_zero.mp (Nat.le_zero.mp hl)
    subst this
    exact List.Sublist.refl []
  | succ n ih =>
    intro l hl
    cases l with
    | nil => exact List.Sublist.refl []
    | cons c cs =>
      cases hm : csiMatch (c :: cs) with
      | some v =>
        obtain ⟨cap, rest⟩ := v
        rw [replaceCsi_cons_match _ hm]
        have hrest : rest.length < (c :: cs).length := csiMatch_rest_length hm
        simp only [List.length_cons] at hl hrest
        have hsub : (replaceCsi (fun _ => []) rest).Sublist rest := ih rest (by omega)
        have hsuf : rest <:+ (c :: cs) := by
          obtain ⟨hleq, -⟩ := csiMatch_eq_some hm
          exact ⟨escChar :: '[' :: cap, hleq.symm⟩
        simpa using hsub.trans hsuf.sublist
      | none =>
        rw [replaceCsi_cons_nomatch _ hm]
        simp only [List.length_cons] at hl
        exact List.Sublist.cons₂ c (ih cs (by omega))

/-- The spec-level description of `removeCodes` (§4.3 of the spec): scan
left to right; at a position where no grammatical CSI sequence starts,
keep the character; at a position where one starts, delete exactly that
matched span; the relation pairs an input with the result. -/
inductive CsiDecomp : List Char → List Char → Prop where
  | nil : CsiDecomp [] []
  | keep : ∀ (c : Char) (cs out : List Char),
      (¬ ∃ m, IsCsi m ∧ m <+: (c :: cs)) → CsiDecomp cs out →
      CsiDecomp (c :: cs) (c :: out)
  | strip : ∀ (m cs out : List Char),
      IsCsi m → CsiDecomp cs out → CsiDecomp (m ++ cs) out

/-- The removing scanner realizes the spec-level decomposition. -/
lemma csiDecomp_replaceCsi :
    ∀ (n : Nat) (l : List Char), l.length ≤ n →
      CsiDecomp l (replaceCsi (fun _ => []) l) := by
  intro n
  induction n with
  | zero =>
    intro l hl
    have : l = [] := List.length_eq_zero.mp (Nat.le_zero.mp hl)
    subst this
    exact CsiDecomp.nil
  | succ n ih =>
    intro l hl
    cases l with
    | nil => exact CsiDecomp.nil
    | cons c cs =>
      cases hm : csiMatch (c :: cs) with
      | some v =>
        obtain ⟨cap, rest⟩ := v
        obtain ⟨hleq, hcsi⟩ := csiMatch_eq_some hm
        rw [replaceCsi_cons_match _ hm, hleq]
        have hrest : rest.length < (c :: cs).length := csiMatch_rest_length hm
        simp only [List.length_cons] at hl hrest
        exact CsiDecomp.strip _ _ _ hcsi (ih rest (by omega))
      | none =>
        rw [replaceCsi_cons_nomatch _ hm]
        simp only [List.length_cons] at hl
        exact CsiDecomp.keep c cs _ (csiMatch_eq_none_iff.mp hm) (ih cs (by omega))

/-- The spec-level decomposition is deterministic and agrees with the
removing scanner: any decomposition's output is the scanner's output. -/
lemma csiDecomp_eq_replaceCsi {l out : List Char} (h : CsiDecomp l out) :
    out = replaceCsi (fun _ => []) l := by
  induction h with
  | nil => rfl
  | keep c cs out hno _ ih =>
    have hnone : csiMatch (c :: cs) = none := csiMatch_eq_none_iff.mpr hno
    rw [replaceCsi_cons_nomatch _ hnone, ih]
  | strip m cs out hcsi _ ih =>
    rw [replaceCsi_isCsi_append hcsi, ih]
    rfl

/-- Soundness of the embedded `_sgrRegExp` search, with leftmostness: a
successful search returns the digit run of the first (leftmost)
occurrence of one-or-more digits immediately followed by `m`. -/
lemma sgrMatchList_eq_some {l run : List Char} (h : sgrMatchList l = some run) :
    ∃ pre post, l = pre ++ run ++ ('m' :: post) ∧ run ≠ [] ∧
      run.all Char.isDigit = true ∧
      ∀ pre' run' post', l = pre' ++ run' ++ ('m' :: post') → run' ≠ [] →
        run'.all Char.isDigit = true → pre.length ≤ pre'.length := by
  induction l with
  | nil => simp [sgrMatchList] at h
  | cons c cs ih =>
    by_cases hc : c.isDigit = true
    · rcases hd : (c :: cs).dropWhile Char.isDigit with _ | ⟨d, post⟩
      · have hrec : sgrMatchList cs = some run := by
          rw [sgrMatchList, if_pos hc, hd] at h
          exact h
        obtain ⟨pre, post, hleq, hne, hdig, hmin⟩ := ih hrec
        refine ⟨c :: pre, post, by simp [hleq], hne, hdig, ?_⟩
        rintro pre' run' post' hleq' hne' hdig'
        cases pre' with
        | nil =>
          exfalso
          simp only [List.nil_append] at hleq'
          obtain ⟨r0, run'', hrun'⟩ := List.exists_cons_of_ne_nil hne'
          have hall := List.all_eq_true.mp hdig'
          have := takeWhile_dropWhile_append Char.isDigit run' ('m' :: post')
            (fun a ha => hall a ha) (by intro b hb; simp at hb; subst hb; decide)
          rw [← hleq'] at this
          rw [this.2] at hd
          cases hd
        | cons p0 pre'' =>
          simp only [List.cons_append, List.cons.injEq] at hleq'
          have := hmin pre'' run' post' hleq'.2 hne' hdig'
          simp only [List.length_cons]
          omega
      · by_cases hdm : d = 'm'
        · subst hdm
          have hrun : run = (c :: cs).takeWhile Char.isDigit := by
            rw [sgrMatchList, if_pos hc, hd] at h
            exact (Option.some.inj h).symm
          refine ⟨[], post, ?_, ?_, ?_, ?_⟩
          · rw [List.nil_append, hrun, ← hd]
            exact (List.takeWhile_append_dropWhile Char.isDigit (c :: cs)).symm
          · rw [hrun]
            simp [List.takeWhile_cons, hc]
          · rw [hrun]
            exact List.all_eq_true.mpr fun x hx => List.mem_takeWhile_imp hx
          · intro pre' _ _ _ _ _
            simp
        · have hrec : sgrMatchList cs = some run := by
            rw [sgrMatchList, if_pos hc, hd] at h
            simpa [hdm] using h
          obtain ⟨pre, post2, hleq, hne, hdig, hmin⟩ := ih hrec
          refine ⟨c :: pre, post2, by simp [hleq], hne, hdig, ?_⟩
          rintro pre' run' post' hleq' hne' hdig'
          cases pre' with
          | nil =>
            exfalso
            simp only [List.nil_append] at hleq'
            have hall := List.all_eq_true.mp hdig'
            have := takeWhile_dropWhile_append Char.isDigit run' ('m' :: post')
              (fun a ha => hall a ha) (by intro b hb; simp at hb; subst hb; decide)
            rw [← hleq'] at this
            rw [this.2] at hd
            exact hdm ((List.cons.injEq _ _ _ _).mp hd).1.symm
          | cons p0 pre'' =>
            simp only [List.cons_append, List.cons.injEq] at hleq'
            have := hmin pre'' run' post' hleq'.2 hne' hdig'
            simp only [List.length_cons]
            omega
    · have hrec : sgrMatchList cs = some run := by
        rw [sgrMatchList, if_neg hc] at h
        exact h
      obtain ⟨pre, post, hleq, hne, hdig, hmin⟩ := ih hrec
      refine ⟨c :: pre, post, by simp [hleq], hne, hdig, ?_⟩
      rintro pre' run' post' hleq' hne' hdig'
      cases pre' with
      | nil =>
        exfalso
        simp only [List.nil_append] at hleq'
        obtain ⟨r0, run'', hrun'⟩ := List.exists_cons_of_ne_nil hne'
        subst hrun'
        simp only [List.cons_append, List.cons.injEq] at hleq'
        have : r0.isDigit = true :=
          List.all_eq_true.mp hdig' r0 (List.mem_cons_self r0 run'')
        rw [← hleq'.1] at this
        exact hc this
      | cons p0 pre'' =>
        simp only [List.cons_append, List.cons.injEq] at hleq'
        have := hmin pre'' run' post' hleq'.2 hne' hdig'
        simp only [List.length_cons]
        omega

/-- The friendly-name outcome of the SGR translation step on a CSI body:
the `_sgrRegExp` search followed by the table lookup (the composite that
decides between the friendly token and the raw fallback in
`formatForTests`). -/
def sgrFriendlyOfBody (csiCode : List Char) : Option String :=
  (sgrMatchList csiCode).bind fun run => tryGetSgrFriendlyName (digitsToNat run)

/-- On an SGR table hit the replacement callback emits the friendly token. -/
lemma csiReplacement_eq_friendly {l : List Char} {name : String}
    (h : sgrFriendlyOfBody l = some name) :
    csiReplacement l = '[' :: name.data ++ [']'] := by
  unfold sgrFriendlyOfBody at h
  cases hm : sgrMatchList l with
  | none => rw [hm] at h; cases h
  | some run =>
    rw [hm, Option.some_bind] at h
    simp only [csiReplacement, hm, h]

/-- With no SGR friendly name the replacement callback emits the raw
capture, terminator included. -/
lemma csiReplacement_eq_fallback {l : List Char}
    (h : sgrFriendlyOfBody l = none) :
    csiReplacement l = '[' :: l ++ [']'] := by
  unfold sgrFriendlyOfBody at h
  cases hm : sgrMatchList l with
  | none => simp only [csiReplacement, hm]
  | some run =>
    rw [hm, Option.some_bind] at h
    simp only [csiReplacement, hm, h]

/-- C1 counterexample: the claim predicts `formatForTests "\x1b[1;31m" = "[1;31]"`,
but the code yields `"[red]"`: the unanchored `_sgrRegExp` finds `31m`
inside the multi-parameter body and the table maps 31 to red. -/
theorem claim_C1_counterexample :
    formatForTests "\x1b[1;31m" none = "[red]" ∧
    formatForTests "\x1b[1;31m" none ≠ "[1;31]" := by
  constructor
  · rfl
  · decide

/-- C1 (amended): for every CSI match whose captured body yields no SGR
friendly name, formatForTests replaces the match with `[` + body + `]`,
where the body excludes the two-character introducer but INCLUDES the
one-character terminator; `"\x1b[1;31m"` is not such a fallback case (it
yields `"[red]"`), while `"\x1b[0m"` is one and yields `"[0m]"`. -/
theorem claim_C1 :
    (∀ (m t : List Char), IsCsi m → sgrFriendlyOfBody (m.drop 2) = none →
      replaceCsi csiReplacement (m ++ t) =
        ('[' :: m.drop 2 ++ [']']) ++ replaceCsi csiReplacement t) ∧
    formatForTests "\x1b[0m" none = "[0m]" ∧
    formatForTests "\x1b[1;31m" none = "[red]" := by
  refine ⟨?_, rfl, rfl⟩
  intro m t hm hf
  rw [replaceCsi_isCsi_append hm, csiReplacement_eq_fallback hf]

/-- C1 witness: the fallback branch evaluated at the concrete match
`"\x1b[0m"`, whose captured body `0m` has no friendly name (code 0 is
unlisted). -/
theorem claim_C1_witness :
    replaceCsi csiReplacement ((escChar :: '[' :: '0' :: 'm' :: []) ++ []) =
      ('[' :: (escChar :: '[' :: '0' :: 'm' :: []).drop 2 ++ [']']) ++
        replaceCsi csiReplacement [] :=
  claim_C1.1 (escChar :: '[' :: '0' :: 'm' :: []) []
    ⟨('0' :: []), [], 'm', rfl, by decide, by decide, by decide⟩ (by decide)

/-- C2 counterexample: the claim predicts that a multi-parameter body such
as `4;31m` yields no friendly name and hence the raw fallback token, but
the code translates `"\x1b[4;31m"` to `"[red]"`. -/
theorem claim_C2_counterexample :
    formatForTests "\x1b[4;31m" none = "[red]" ∧
    formatForTests "\x1b[4;31m" none ≠ "[4;31m]" := by
  constructor
  · rfl
  · decide

/-- C2 (amended): the SGR translation step yields a friendly name exactly
by searching the body for its leftmost occurrence of one-or-more decimal
digits immediately followed by the literal `m` (so multi-parameter bodies
can yield names); if no such occurrence exists the result is no name, and
an unlisted first code (such as 0 in `0m`) also yields no name. -/
theorem claim_C2 :
    (∀ (l : List Char) (name : String), sgrFriendlyOfBody l = some name →
      ∃ pre run post, l = pre ++ run ++ ('m' :: post) ∧ run ≠ [] ∧
        run.all Char.isDigit = true ∧
        tryGetSgrFriendlyName (digitsToNat run) = some name ∧
        ∀ pre' run' post', l = pre' ++ run' ++ ('m' :: post') → run' ≠ [] →
          run'.all Char.isDigit = true → pre.length ≤ pre'.length) ∧
    (∀ l : List Char,
      (¬ ∃ pre run post, l = pre ++ run ++ ('m' :: post) ∧ run ≠ [] ∧
        run.all Char.isDigit = true) → sgrFriendlyOfBody l = none) ∧
    sgrFriendlyOfBody ('0' :: 'm' :: []) = none := by
  refine ⟨?_, ?_, by decide⟩
  · intro l name h
    unfold sgrFriendlyOfBody at h
    cases hm : sgrMatchList l with
    | none => rw [hm] at h; cases h
    | some run =>
      rw [hm, Option.some_bind] at h
      obtain ⟨pre, post, hleq, hne, hdig, hmin⟩ := sgrMatchList_eq_some hm
      exact ⟨pre, run, post, hleq, hne, hdig, h, hmin⟩
  · intro l hno
    unfold sgrFriendlyOfBody
    cases hm : sgrMatchList l with
    | none => rfl
    | some run =>
      obtain ⟨pre, post, hleq, hne, hdig, -⟩ := sgrMatchList_eq_some hm
      exact absurd ⟨pre, run, post, hleq, hne, hdig⟩ hno

/-- C2 witness: the positive direction evaluated at the concrete body
`31m`, which resolves to red. -/
theorem claim_C2_witness :
    ∃ pre run post, ('3' :: '1' :: 'm' :: []) = pre ++ run ++ ('m' :: post) ∧
      run ≠ [] ∧ run.all Char.isDigit = true ∧
      tryGetSgrFriendlyName (digitsToNat run) = some "red" ∧
      ∀ pre' run' post',
        ('3' :: '1' :: 'm' :: []) = pre' ++ run' ++ ('m' :: post') → run' ≠ [] →
        run'.all Char.isDigit = true → pre.length ≤ pre'.length :=
  claim_C2.1 ('3' :: '1' :: 'm' :: []) "red" (by decide)

/-- C3 counterexample: a lone escape character is not a CSI match, so it
survives `removeCodes` (the output does contain a 0x1B byte); moreover
deleting a match can juxtapose the remaining text into a new CSI
sequence, so the output can even contain a full CSI sequence. -/
theorem claim_C3_counterexample :
    (Char.ofNat 0x1b ∈ (removeCodes "\x1b").data) ∧
    hasCsiB (removeCodes "\x1b[\x1b[31mm").data = true := by
  constructor
  · decide
  · decide

/-- C3 (amended): `removeCodes` only deletes characters — its output is a
subsequence of the input — so an input containing no 0x1B byte produces
an output containing no 0x1B byte; unmatched escape bytes, however, pass
through. -/
theorem claim_C3 (s : String) :
    (removeCodes s).data.Sublist s.data ∧
    (escChar ∉ s.data → escChar ∉ (removeCodes s).data) := by
  have hsub : (removeCodes s).data.Sublist s.data :=
    replaceCsi_remove_sublist s.data.length s.data le_rfl
  exact ⟨hsub, fun hno hmem => hno (hsub.subset hmem)⟩

/-- C3 witness: the escape-free input `"abc"` gives an escape-free output. -/
theorem claim_C3_witness : escChar ∉ (removeCodes "abc").data :=
  (claim_C3 "abc").2 (by decide)

/-- C4 counterexample: on `"\x1b[\x1b[31mm"` the first pass deletes
`\x1b[31m`, juxtaposing `\x1b[` with `m` into the new CSI sequence
`\x1b[m`, which a second pass deletes — so `removeCodes` is not
idempotent. -/
theorem claim_C4_counterexample :
    removeCodes (removeCodes "\x1b[\x1b[31mm") ≠ removeCodes "\x1b[\x1b[31mm" := by
  decide

/-- C4 (amended): `removeCodes` is idempotent on every input whose first
pass leaves no CSI sequence in the output (in particular whenever no new
sequence is created by deletion); in general idempotence fails. -/
theorem claim_C4 (s : String)
    (h : ¬ ∃ m, IsCsi m ∧ m <:+: (removeCodes s).data) :
    removeCodes (removeCodes s) = removeCodes s :=
  removeCodes_eq_self h

/-- C4 witness: idempotence at the concrete input `"\x1b[31mRed"`. -/
theorem claim_C4_witness :
    removeCodes (removeCodes "\x1b[31mRed") = removeCodes "\x1b[31mRed" :=
  claim_C4 "\x1b[31mRed" (hasCsiB_eq_false_iff.mp (by decide))

/-- C5 (confirmed): `removeCodes s` is exactly `s` with the leftmost,
non-overlapping grammatical CSI matches deleted and all other characters
preserved verbatim and in order: the spec-level decomposition relation
`CsiDecomp` holds between input and output, and it determines the output
uniquely. -/
theorem claim_C5 (s : String) :
    CsiDecomp s.data (removeCodes s).data ∧
    ∀ out, CsiDecomp s.data out → out = (removeCodes s).data :=
  ⟨csiDecomp_replaceCsi s.data.length s.data le_rfl,
    fun _ h => csiDecomp_eq_replaceCsi h⟩

/-- C5 witness: the uniqueness direction evaluated on the concrete input
`"\x1b[31mA"` with the hand-built decomposition that strips `\x1b[31m`
and keeps `A`. -/
theorem claim_C5_witness : ('A' :: []) = (removeCodes "\x1b[31mA").data :=
  (claim_C5 "\x1b[31mA").2 ('A' :: [])
    (show CsiDecomp ((escChar :: '[' :: '3' :: '1' :: 'm' :: []) ++ ('A' :: []))
        ('A' :: []) from
      CsiDecomp.strip _ _ _
        ⟨('3' :: '1' :: []), [], 'm', rfl, by decide, by decide, by decide⟩
        (CsiDecomp.keep 'A' [] [] (csiMatch_eq_none_iff.mp (by decide))
          CsiDecomp.nil))

/-- C6 (confirmed): for each of the 32 (code, name) pairs of the SGR
table, `formatForTests ("\x1b[" + code + "m")` equals `"[" + name + "]"`. -/
theorem claim_C6 :
    formatForTests "\x1b[30m" none = "[black]" ∧
    formatForTests "\x1b[31m" none = "[red]" ∧
    formatForTests "\x1b[32m" none = "[green]" ∧
    formatForTests "\x1b[33m" none = "[yellow]" ∧
    formatForTests "\x1b[34m" none = "[blue]" ∧
    formatForTests "\x1b[35m" none = "[magenta]" ∧
    formatForTests "\x1b[36m" none = "[cyan]" ∧
    formatForTests "\x1b[37m" none = "[white]" ∧
    formatForTests "\x1b[90m" none = "[gray]" ∧
    formatForTests "\x1b[39m" none = "[default]" ∧
    formatForTests "\x1b[40m" none = "[black-bg]" ∧
    formatForTests "\x1b[41m" none = "[red-bg]" ∧
    formatForTests "\x1b[42m" none = "[green-bg]" ∧
    formatForTests "\x1b[43m" none = "[yellow-bg]" ∧
    formatForTests "\x1b[44m" none = "[blue-bg]" ∧
    formatForTests "\x1b[45m" none = "[magenta-bg]" ∧
    formatForTests "\x1b[46m" none = "[cyan-bg]" ∧
    formatForTests "\x1b[47m" none = "[white-bg]" ∧
    formatForTests "\x1b[100m" none = "[gray-bg]" ∧
    formatForTests "\x1b[49m" none = "[default-bg]" ∧
    formatForTests "\x1b[1m" none = "[bold]" ∧
    formatForTests "\x1b[21m" none = "[bold-off]" ∧
    formatForTests "\x1b[2m" none = "[dim]" ∧
    formatForTests "\x1b[22m" none = "[normal]" ∧
    formatForTests "\x1b[4m" none = "[underline]" ∧
    formatForTests "\x1b[24m" none = "[underline-off]" ∧
    formatForTests "\x1b[5m" none = "[blink]" ∧
    formatForTests "\x1b[25m" none = "[blink-off]" ∧
    formatForTests "\x1b[7m" none = "[invert]" ∧
    formatForTests "\x1b[27m" none = "[invert-off]" ∧
    formatForTests "\x1b[8m" none = "[hidden]" ∧
    formatForTests "\x1b[28m" none = "[hidden-off]" :=
  ⟨rfl, rfl, rfl, rfl, rfl, rfl, rfl, rfl, rfl, rfl, rfl, rfl, rfl, rfl, rfl,
   rfl, rfl, rfl, rfl, rfl, rfl, rfl, rfl, rfl, rfl, rfl, rfl, rfl, rfl, rfl,
   rfl, rfl⟩

/-- C7 (confirmed): an input containing no substring matching the full
CSI grammar — plain text, a lone escape, or a truncated sequence — is
returned unchanged by `removeCodes` and by `formatForTests` without
options. -/
theorem claim_C7 (s : String) (h : ¬ ∃ m, IsCsi m ∧ m <:+: s.data) :
    removeCodes s = s ∧ formatForTests s none = s :=
  ⟨removeCodes_eq_self h, formatForTests_eq_self h⟩

/-- C7 witness: the truncated input `"a\x1b["` (a bare introducer with no
terminator) passes through both operations unchanged. -/
theorem claim_C7_witness :
    removeCodes "a\x1b[" = "a\x1b[" ∧ formatForTests "a\x1b[" none = "a\x1b[" :=
  claim_C7 "a\x1b[" (hasCsiB_eq_false_iff.mp (by decide))

/-- C8 (confirmed): with `encodeNewlines` true, after escape substitution
and over the whole string, every remaining line feed becomes `[n]` and
every remaining carriage return becomes `[r]`; with the option unset,
false, or with options absent, newlines are left unchanged and the three
spellings coincide. -/
theorem claim_C8 :
    formatForTests "a\nb\rc" (some ⟨some true⟩) = "a[n]b[r]c" ∧
    formatForTests "a\nb\rc" (some ⟨some false⟩) = "a\nb\rc" ∧
    formatForTests "a\nb\rc" (some ⟨none⟩) = "a\nb\rc" ∧
    formatForTests "a\nb\rc" none = "a\nb\rc" ∧
    (∀ t : String, formatForTests t (some ⟨some true⟩) =
      String.mk (replaceChar '\r' "[r]".data
        (replaceChar '\n' "[n]".data (replaceCsi csiReplacement t.data)))) ∧
    (∀ t : String,
      formatForTests t none = String.mk (replaceCsi csiReplacement t.data)) ∧
    (∀ t : String, formatForTests t none = formatForTests t (some ⟨some false⟩)) ∧
    (∀ t : String, formatForTests t none = formatForTests t (some ⟨none⟩)) :=
  ⟨rfl, rfl, rfl, rfl, fun _ => rfl, fun _ => rfl, fun _ => rfl, fun _ => rfl⟩

/-- C9 (confirmed): for a CSI match whose body contains a digit run
immediately followed by the terminator `m`, the lookup uses the numeric
value of the first such occurrence, and on a table hit the friendly
token is emitted instead of the raw-body fallback; in particular
`formatForTests "\x1b[38;5;31m"` equals `"[red]"`. -/
theorem claim_C9 :
    (∀ (m t : List Char) (name : String), IsCsi m →
      sgrFriendlyOfBody (m.drop 2) = some name →
      replaceCsi csiReplacement (m ++ t) =
        ('[' :: name.data ++ [']']) ++ replaceCsi csiReplacement t) ∧
    formatForTests "\x1b[38;5;31m" none = "[red]" := by
  refine ⟨?_, rfl⟩
  intro m t name hm hf
  rw [replaceCsi_isCsi_append hm, csiReplacement_eq_friendly hf]

/-- C9 witness: the friendly branch evaluated at the concrete match
`"\x1b[38;5;31m"`, whose first digit-run-before-`m` is 31, i.e. red. -/
theorem claim_C9_witness :
    replaceCsi csiReplacement
        ((escChar :: '[' :: '3' :: '8' :: ';' :: '5' :: ';' :: '3' :: '1' :: 'm' :: []) ++ []) =
      ('[' :: "red".data ++ [']']) ++ replaceCsi csiReplacement [] :=
  claim_C9.1 (escChar :: '[' :: '3' :: '8' :: ';' :: '5' :: ';' :: '3' :: '1' :: 'm' :: []) [] "red"
    ⟨('3' :: '8' :: ';' :: '5' :: ';' :: '3' :: '1' :: []), [], 'm',
      rfl, by decide, by decide, by decide⟩
    (by decide)

/-- C10 (confirmed): SGR digits are parsed in base 10, so a leading zero
does not change the token: for every (code, name) pair of the table,
`formatForTests ("\x1b[0" + code + "m")` equals `"[" + name + "]"`. -/
theorem claim_C10 :
    formatForTests "\x1b[030m" none = "[black]" ∧
    formatForTests "\x1b[031m" none = "[red]" ∧
    formatForTests "\x1b[032m" none = "[green]" ∧
    formatForTests "\x1b[033m" none = "[yellow]" ∧
    formatForTests "\x1b[034m" none = "[blue]" ∧
    formatForTests "\x1b[035m" none = "[magenta]" ∧
    formatForTests "\x1b[036m" none = "[cyan]" ∧
    formatForTests "\x1b[037m" none = "[white]" ∧
    formatForTests "\x1b[090m" none = "[gray]" ∧
    formatForTests "\x1b[039m" none = "[default]" ∧
    formatForTests "\x1b[040m" none = "[black-bg]" ∧
    formatForTests "\x1b[041m" none = "[red-bg]" ∧
    formatForTests "\x1b[042m" none = "[green-bg]" ∧
    formatForTests "\x1b[043m" none = "[yellow-bg]" ∧
    formatForTests "\x1b[044m" none = "[blue-bg]" ∧
    formatForTests "\x1b[045m" none = "[magenta-bg]" ∧
    formatForTests "\x1b[046m" none = "[cyan-bg]" ∧
    formatForTests "\x1b[047m" none = "[white-bg]" ∧
    formatForTests "\x1b[0100m" none = "[gray-bg]" ∧
    formatForTests "\x1b[049m" none = "[default-bg]" ∧
    formatForTests "\x1b[01m" none = "[bold]" ∧
    formatForTests "\x1b[021m" none = "[bold-off]" ∧
    formatForTests "\x1b[02m" none = "[dim]" ∧
    formatForTests "\x1b[022m" none = "[normal]" ∧
    formatForTests "\x1b[04m" none = "[underline]" ∧
    formatForTests "\x1b[024m" none = "[underline-off]" ∧
    formatForTests "\x1b[05m" none = "[blink]" ∧
    formatForTests "\x1b[025m" none = "[blink-off]" ∧
    formatForTests "\x1b[07m" none = "[invert]" ∧
    formatForTests "\x1b[027m" none = "[invert-off]" ∧
    formatForTests "\x1b[08m" none = "[hidden]" ∧
    formatForTests "\x1b[028m" none = "[hidden-off]" :=
  ⟨rfl, rfl, rfl, rfl, rfl, rfl, rfl, rfl, rfl, rfl, rfl, rfl, rfl, rfl, rfl,
   rfl, rfl, rfl, rfl, rfl, rfl, rfl, rfl, rfl, rfl, rfl, rfl, rfl, rfl, rfl,
   rfl, rfl⟩

end AnsiEscape
